import Mathlib

/-!
Verification of the audiokit audio-graph engine against its specification.

The definitions below are shallow embeddings of the Python source:

* `AudioGraphManager`, `add_node`, `connect` embed
  `src/audiokit/graph/manager.py` (nodes are stored in an insertion-ordered
  association list mirroring a Python `dict`; `connect` mirrors the two
  membership checks followed by an append).
* `lfilter`, `AudioFilterNode.process` embed `AudioFilterNode` of
  `src/audiokit/nodes/effects.py` (scipy's `signal.lfilter` applied with its
  default `axis=-1`, i.e. along each frame's channel vector, and with zero
  initial filter state on every call, exactly as the source calls it).
* `compressorProcess` embeds `CompressorNode.process`; the transcendental
  helpers `20*log10(|x|+1e-10)` and `10^(g/20)` are abstracted as function
  parameters `lvl` and `pow10`, since every claim settled here is independent
  of their values.
* `DelayNode.process` embeds `DelayNode.process`, including the NumPy view
  aliasing of `delayed` (the wet part of the output reads the buffer row that
  was just overwritten, because `delayed = self.buffer[read_pos]` is a view
  and `read_pos == write_pos`).
* `rebuildPlan` is modelled from the spec: the source's
  `AudioGraphManager.process` / `_process_audio` are stubs, so the plan
  rebuild (topological order with insertion-order tie-break and a generation
  counter) is reconstructed from the spec's words.

Samples are modelled as rationals, multi-channel blocks as lists of rows.
-/

/-- A directed audio graph: nodes keyed by id (insertion-ordered, as a Python
`dict`), plus a list of directed connections. Embeds `AudioGraphManager` of
`src/audiokit/graph/manager.py`. The node payload is abstract. -/
structure AudioGraphManager (α : Type) where
  nodes : List (String × α)
  connections : List (String × String)
deriving Repr

/-- Python `dict` assignment `d[k] = v`: replace the value in place if the key
is present (keeping its position), otherwise append the binding. -/
def dictInsert {α : Type} : List (String × α) → String → α → List (String × α)
  | [], k, v => [(k, v)]
  | (k', v') :: t, k, v =>
      if k' = k then (k, v) :: t else (k', v') :: dictInsert t k v

/-- Python `dict` lookup `d.get(k)`. -/
def findNode {α : Type} : List (String × α) → String → Option α
  | [], _ => none
  | (k', v) :: t, k => if k' = k then some v else findNode t k

/-- Embeds `AudioGraphManager.add_node`: `self.nodes[node.id] = node`.
The source performs no duplicate-id check and reports no error. -/
def add_node {α : Type} (g : AudioGraphManager α) (node : String × α) :
    AudioGraphManager α :=
  { g with nodes := dictInsert g.nodes node.1 node.2 }

/-- The errors `connect` can raise (the source raises `ValueError` with a
"node ... not found" message; the spec calls this `UnknownNode`). -/
inductive GraphError : Type
  | unknownNode (id : String)
deriving DecidableEq, Repr

/-- Embeds `AudioGraphManager.connect`: check that `from_id` is a key of
`self.nodes`, then that `to_id` is, then append `(from_id, to_id)` to
`self.connections`. A raised error leaves the manager unchanged, which the
embedding renders by returning the input graph together with the error.
The source performs no cycle check. -/
def connect {α : Type} (g : AudioGraphManager α) (from_id to_id : String) :
    AudioGraphManager α × Option GraphError :=
  match findNode g.nodes from_id with
  | none => (g, some (GraphError.unknownNode from_id))
  | some _ =>
    match findNode g.nodes to_id with
    | none => (g, some (GraphError.unknownNode to_id))
    | some _ =>
      ({ g with connections := g.connections ++ [(from_id, to_id)] }, none)

/-- A nonempty directed path along a list of edges. -/
inductive HasPath (E : List (String × String)) : String → String → Prop
  | single {a b : String} : (a, b) ∈ E → HasPath E a b
  | cons {a b c : String} : (a, b) ∈ E → HasPath E b c → HasPath E a c

/-- The edge relation has no (nonempty) cycle. -/
def Acyclic (E : List (String × String)) : Prop :=
  ∀ a : String, ¬ HasPath E a a

theorem HasPath.mono {E E' : List (String × String)} {a b : String}
    (hsub : E' ⊆ E) (h : HasPath E' a b) : HasPath E a b := by
  induction h with
  | single h => exact HasPath.single (hsub h)
  | cons h _ ih => exact HasPath.cons (hsub h) ih

theorem HasPath.trans {E : List (String × String)} {a b c : String}
    (h1 : HasPath E a b) (h2 : HasPath E b c) : HasPath E a c := by
  induction h1 with
  | single h => exact HasPath.cons h h2
  | cons h _ ih => exact HasPath.cons h (ih h2)

/-- If some ranking increases along every edge, the edge list is acyclic. -/
theorem acyclic_of_rank {E : List (String × String)} (rank : String → ℕ)
    (h : ∀ e ∈ E, rank e.1 < rank e.2) : Acyclic E := by
  intro a hpath
  suffices mono : ∀ {x y : String}, HasPath E x y → rank x < rank y by
    exact lt_irrefl _ (mono hpath)
  intro x y hxy
  induction hxy with
  | single hmem => exact h _ hmem
  | cons hmem _ ih => exact lt_trans (h _ hmem) ih

/-- Claim C1: the source's `connect` performs no cycle check. On the graph
with nodes `a`, `b` and the single connection `("b","a")`, connecting `a` to
`b` succeeds (no error), appends the edge, and the resulting connection list
contains a cycle through `"a"`. -/
theorem connect_appends_cycle :
    (connect (AudioGraphManager.mk [("a", 0), ("b", 0)] [("b", "a")] : AudioGraphManager ℕ) "a" "b").2 = none ∧
    (connect (AudioGraphManager.mk [("a", 0), ("b", 0)] [("b", "a")] : AudioGraphManager ℕ) "a" "b").1.nodes = [("a", 0), ("b", 0)] ∧
    (connect (AudioGraphManager.mk [("a", 0), ("b", 0)] [("b", "a")] : AudioGraphManager ℕ) "a" "b").1.connections = [("b", "a"), ("a", "b")] ∧
    HasPath [("b", "a"), ("a", "b")] "a" "a" := by
  refine ⟨rfl, rfl, rfl, ?_⟩
  exact HasPath.cons (b := "b") (by simp) (HasPath.single (by simp))

/-- Claim C6: the source's `add_node` performs no duplicate-id check; adding a
second node under an already-present id silently replaces the stored node
instead of failing with `DuplicateId`. -/
theorem add_node_overwrites :
    (add_node (add_node (AudioGraphManager.mk [] [] : AudioGraphManager ℕ) ("a", 1)) ("a", 2)).nodes = [("a", 2)] ∧
    findNode (add_node (add_node (AudioGraphManager.mk [] [] : AudioGraphManager ℕ) ("a", 1)) ("a", 2)).nodes "a" = some 2 ∧
    some (2 : ℕ) ≠ some 1 := by
  refine ⟨rfl, rfl, by decide⟩

/-- Claim C7: `connect` fails with `UnknownNode` exactly when one of the two
ids is absent (the source checks `from_id` first); every failing `connect`
returns the graph unchanged; a successful `connect` appends exactly the one
pair `(from_id, to_id)` to the connection list and touches nothing else. -/
theorem connect_contract {α : Type} (g : AudioGraphManager α) (a b : String) :
    (findNode g.nodes a = none →
      connect g a b = (g, some (GraphError.unknownNode a))) ∧
    (findNode g.nodes a ≠ none → findNode g.nodes b = none →
      connect g a b = (g, some (GraphError.unknownNode b))) ∧
    (∀ e, (connect g a b).2 = some e → (connect g a b).1 = g) ∧
    (findNode g.nodes a ≠ none → findNode g.nodes b ≠ none →
      connect g a b =
        ({ g with connections := g.connections ++ [(a, b)] }, none)) := by
  rcases hA : findNode g.nodes a with _ | vA <;>
    rcases hB : findNode g.nodes b with _ | vB <;>
      simp [connect, hA, hB]

/-- Witness for C7 at a concrete graph with both endpoints present. -/
theorem connect_contract_witness :
    (findNode (AudioGraphManager.mk [("x", 0), ("y", 1)] [] : AudioGraphManager ℕ).nodes "x" = none →
      connect (AudioGraphManager.mk [("x", 0), ("y", 1)] [] : AudioGraphManager ℕ) "x" "y" =
        ((AudioGraphManager.mk [("x", 0), ("y", 1)] [] : AudioGraphManager ℕ), some (GraphError.unknownNode "x"))) ∧
    (findNode (AudioGraphManager.mk [("x", 0), ("y", 1)] [] : AudioGraphManager ℕ).nodes "x" ≠ none →
      findNode (AudioGraphManager.mk [("x", 0), ("y", 1)] [] : AudioGraphManager ℕ).nodes "y" = none →
      connect (AudioGraphManager.mk [("x", 0), ("y", 1)] [] : AudioGraphManager ℕ) "x" "y" =
        ((AudioGraphManager.mk [("x", 0), ("y", 1)] [] : AudioGraphManager ℕ), some (GraphError.unknownNode "y"))) ∧
    (∀ e, (connect (AudioGraphManager.mk [("x", 0), ("y", 1)] [] : AudioGraphManager ℕ) "x" "y").2 = some e →
      (connect (AudioGraphManager.mk [("x", 0), ("y", 1)] [] : AudioGraphManager ℕ) "x" "y").1 =
        (AudioGraphManager.mk [("x", 0), ("y", 1)] [] : AudioGraphManager ℕ)) ∧
    (findNode (AudioGraphManager.mk [("x", 0), ("y", 1)] [] : AudioGraphManager ℕ).nodes "x" ≠ none →
      findNode (AudioGraphManager.mk [("x", 0), ("y", 1)] [] : AudioGraphManager ℕ).nodes "y" ≠ none →
      connect (AudioGraphManager.mk [("x", 0), ("y", 1)] [] : AudioGraphManager ℕ) "x" "y" =
        ({ (AudioGraphManager.mk [("x", 0), ("y", 1)] [] : AudioGraphManager ℕ) with
            connections := (AudioGraphManager.mk [("x", 0), ("y", 1)] [] : AudioGraphManager ℕ).connections ++ [("x", "y")] }, none)) :=
  connect_contract (AudioGraphManager.mk [("x", 0), ("y", 1)] [] : AudioGraphManager ℕ) "x" "y"

/-- An execution plan: a topologically ordered sequence of node ids tagged
with a generation number (spec section 3, `ExecutionPlan`). -/
structure Plan where
  order : List String
  generation : ℕ
deriving Repr

/-- Does node `n` have an incoming edge from one of the nodes in `ns`? -/
def hasIncoming (E : List (String × String)) (ns : List String) (n : String) :
    Bool :=
  ns.any (fun u => decide ((u, n) ∈ E))

/-- First node of `ns` (insertion order) with no incoming edge from `ns`. -/
def pickSource (E : List (String × String)) (ns : List String) :
    Option String :=
  ns.find? (fun n => ! hasIncoming E ns n)

/-- Fueled Kahn topological sort: repeatedly emit the first remaining node
(in insertion order) that has no incoming edge from the remaining nodes. -/
def topoSortF (E : List (String × String)) : ℕ → List String → List String
  | 0, _ => []
  | fuel + 1, ns =>
    match pickSource E ns with
    | none => []
    | some m => m :: topoSortF E fuel (ns.erase m)

/-- Modelled from the spec: `rebuildPlan()` of the Topology Editor (spec
section 4.1). The source's `AudioGraphManager.process` and `_process_audio`
are stubs (`pass` and an elided body), so the plan rebuild is reconstructed
from the spec's words: recompute a topological order with stable tie-break by
node-insertion order and publish it with generation = previous + 1. -/
def rebuildPlan {α : Type} (g : AudioGraphManager α) (prev : Plan) : Plan :=
  { order := topoSortF g.connections (g.nodes.map Prod.fst).length
      (g.nodes.map Prod.fst),
    generation := prev.generation + 1 }

/-- The ids of the graph's nodes in insertion order. -/
def nodeIds {α : Type} (g : AudioGraphManager α) : List String :=
  g.nodes.map Prod.fst

/-- Edges with both endpoints inside `ns`. -/
def restrictEdges (E : List (String × String)) (ns : List String) :
    List (String × String) :=
  E.filter (fun e => decide (e.1 ∈ ns) && decide (e.2 ∈ ns))

/-- A finite nonempty list carrying a transitive relation that is irreflexive
on the whole type contains a minimal element. -/
theorem exists_minimal_of_trans_irrefl {R : String → String → Prop}
    (htrans : ∀ a b c, R a b → R b c → R a c) (hirr : ∀ a, ¬ R a a) :
    ∀ ns : List String, ns ≠ [] → ∃ m ∈ ns, ∀ y ∈ ns, ¬ R y m := by
  intro ns
  induction ns with
  | nil => intro h; exact absurd rfl h
  | cons x xs ih =>
    intro _
    rcases hxs : xs with _ | ⟨z, zs⟩
    · refine ⟨x, by simp, ?_⟩
      intro y hy
      rcases List.mem_singleton.mp hy with rfl
      exact hirr y
    · rw [← hxs]
      obtain ⟨m, hm, hmin⟩ := ih (by simp [hxs])
      by_cases hRxm : R x m
      · refine ⟨x, by simp, ?_⟩
        intro y hy hRyx
        rcases List.mem_cons.mp hy with rfl | hy'
        · exact hirr y hRyx
        · exact hmin y hy' (htrans y x m hRyx hRxm)
      · refine ⟨m, List.mem_cons_of_mem x hm, ?_⟩
        intro y hy
        rcases List.mem_cons.mp hy with rfl | hy'
        · exact hRxm
        · exact hmin y hy'

/-- In an acyclic edge list, every nonempty set of nodes contains a source:
`pickSource` cannot return `none`. -/
theorem pickSource_ne_none {E : List (String × String)} {ns : List String}
    (hne : ns ≠ []) (hacyc : Acyclic E) :
    pickSource E ns ≠ none := by
  intro hnone
  have hall := List.find?_eq_none.mp hnone
  have hsub : restrictEdges E ns ⊆ E := (List.filter_sublist E).subset
  have hirr : ∀ a, ¬ HasPath (restrictEdges E ns) a a := by
    intro a hp
    exact hacyc a (hp.mono hsub)
  obtain ⟨m, hm, hmin⟩ :=
    exists_minimal_of_trans_irrefl
      (fun a b c h1 h2 => h1.trans h2) hirr ns hne
  have hpm := hall m hm
  simp only [Bool.not_eq_true', Bool.not_eq_false] at hpm
  obtain ⟨u, hu, hedge⟩ := List.any_eq_true.mp hpm
  have hedge' : (u, m) ∈ E := of_decide_eq_true hedge
  have hrestrict : (u, m) ∈ restrictEdges E ns := by
    simp only [restrictEdges, List.mem_filter]
    exact ⟨hedge', by simp [hu, hm]⟩
  exact hmin u hu (HasPath.single hrestrict)

theorem pickSource_mem {E : List (String × String)} {ns : List String}
    {m : String} (h : pickSource E ns = some m) : m ∈ ns :=
  List.mem_of_find?_eq_some h

/-- A picked source has no incoming edge from the remaining nodes. -/
theorem pickSource_no_incoming {E : List (String × String)} {ns : List String}
    {m : String} (h : pickSource E ns = some m) :
    ∀ u ∈ ns, (u, m) ∉ E := by
  have hp := List.find?_some h
  simp only [Bool.not_eq_true', hasIncoming] at hp
  intro u hu hmem
  have : ns.any (fun u => decide ((u, m) ∈ E)) = true :=
    List.any_eq_true.mpr ⟨u, hu, decide_eq_true hmem⟩
  rw [hp] at this
  exact Bool.false_ne_true this

/-- The fueled Kahn sort emits a permutation of its input node list whenever
the fuel suffices and the edges are acyclic. -/
theorem topoSortF_perm {E : List (String × String)} (hacyc : Acyclic E) :
    ∀ (fuel : ℕ) (ns : List String), ns.length ≤ fuel →
      (topoSortF E fuel ns).Perm ns := by
  intro fuel
  induction fuel with
  | zero =>
    intro ns hle
    rw [Nat.le_zero, List.length_eq_zero] at hle
    subst hle
    exact List.Perm.refl _
  | succ fuel ih =>
    intro ns hle
    rcases hns : ns with _ | ⟨x, xs⟩
    · simp [topoSortF, pickSource, List.find?]
    · rw [← hns]
      have hne : ns ≠ [] := by simp [hns]
      rcases hpick : pickSource E ns with _ | m
      · exact absurd hpick (pickSource_ne_none hne hacyc)
      · have hm : m ∈ ns := pickSource_mem hpick
        have hlen : (ns.erase m).length ≤ fuel := by
          rw [List.length_erase_of_mem hm]
          omega
        have hperm := ih (ns.erase m) hlen
        simp only [topoSortF, hpick]
        exact (hperm.cons m).trans (List.perm_cons_erase hm).symm

/-- The fueled Kahn sort places the source of every edge strictly before its
target, whenever both endpoints are among the nodes being sorted. -/
theorem topoSortF_edge_order {E : List (String × String)} (hacyc : Acyclic E) :
    ∀ (fuel : ℕ) (ns : List String), ns.length ≤ fuel →
      ∀ a b, (a, b) ∈ E → a ∈ ns → b ∈ ns →
        (topoSortF E fuel ns).indexOf a < (topoSortF E fuel ns).indexOf b := by
  intro fuel
  induction fuel with
  | zero =>
    intro ns hle a b _ ha _
    rw [Nat.le_zero, List.length_eq_zero] at hle
    subst hle
    exact absurd ha (List.not_mem_nil a)
  | succ fuel ih =>
    intro ns hle a b hedge ha hb
    have hne : ns ≠ [] := by
      intro h; subst h; exact List.not_mem_nil a ha
    rcases hpick : pickSource E ns with _ | m
    · exact absurd hpick (pickSource_ne_none hne hacyc)
    have hm : m ∈ ns := pickSource_mem hpick
    have hbm : b ≠ m := by
      intro h; subst h
      exact pickSource_no_incoming hpick a ha hedge
    simp only [topoSortF, hpick]
    by_cases ham : a = m
    · subst ham
      rw [List.indexOf_cons_self, List.indexOf_cons_ne _ (Ne.symm hbm)]
      exact Nat.succ_pos _
    · have hlen : (ns.erase m).length ≤ fuel := by
        rw [List.length_erase_of_mem hm]
        omega
      have ha' : a ∈ ns.erase m := (List.mem_erase_of_ne ham).mpr ha
      have hb' : b ∈ ns.erase m := (List.mem_erase_of_ne hbm).mpr hb
      have := ih (ns.erase m) hlen a b hedge ha' hb'
      rw [List.indexOf_cons_ne _ (Ne.symm ham),
        List.indexOf_cons_ne _ (Ne.symm hbm)]
      omega

/-- With no edges at all, the Kahn sort returns the nodes in insertion order
(the stable tie-break for fully independent nodes). -/
theorem topoSortF_no_edges :
    ∀ (fuel : ℕ) (ns : List String), ns.length ≤ fuel →
      topoSortF [] fuel ns = ns := by
  intro fuel
  induction fuel with
  | zero =>
    intro ns hle
    rw [Nat.le_zero, List.length_eq_zero] at hle
    subst hle
    rfl
  | succ fuel ih =>
    intro ns hle
    rcases ns with _ | ⟨x, xs⟩
    · rfl
    · have hpick : pickSource [] (x :: xs) = some x := by
        apply List.find?_cons_of_pos
        simp [hasIncoming]
      simp only [topoSortF, hpick, List.erase_cons_head]
      rw [ih xs (by simpa using Nat.le_of_succ_le_succ hle)]

/-- Claim C2: for every acyclic graph, the rebuilt plan's order is a
permutation of the node ids in which the source of every edge appears
strictly before its target; ties between fully independent nodes (no edges)
are broken by node-insertion order; and the published generation is the
previous generation plus one. -/
theorem rebuildPlan_topological {α : Type} (g : AudioGraphManager α)
    (prev : Plan) (hacyc : Acyclic g.connections) :
    (rebuildPlan g prev).order.Perm (nodeIds g) ∧
    (∀ a b, (a, b) ∈ g.connections → a ∈ nodeIds g → b ∈ nodeIds g →
      (rebuildPlan g prev).order.indexOf a <
        (rebuildPlan g prev).order.indexOf b) ∧
    (g.connections = [] → (rebuildPlan g prev).order = nodeIds g) ∧
    (rebuildPlan g prev).generation = prev.generation + 1 := by
  refine ⟨?_, ?_, ?_, rfl⟩
  · exact topoSortF_perm hacyc _ _ (le_refl _)
  · intro a b hedge ha hb
    exact topoSortF_edge_order hacyc _ _ (le_refl _) a b hedge ha hb
  · intro hE
    show topoSortF g.connections _ _ = _
    rw [hE]
    exact topoSortF_no_edges _ _ (le_refl _)

/-- Witness for C2: the spec's concrete scenario `in → f → out`. -/
theorem rebuildPlan_topological_witness :
    (rebuildPlan (AudioGraphManager.mk [("in", 0), ("f", 0), ("out", 0)] [("in", "f"), ("f", "out")] : AudioGraphManager ℕ) (Plan.mk [] 0)).order.Perm
      (nodeIds (AudioGraphManager.mk [("in", 0), ("f", 0), ("out", 0)] [("in", "f"), ("f", "out")] : AudioGraphManager ℕ)) ∧
    (rebuildPlan (AudioGraphManager.mk [("in", 0), ("f", 0), ("out", 0)] [("in", "f"), ("f", "out")] : AudioGraphManager ℕ) (Plan.mk [] 0)).generation = 1 := by
  have hacyc :
      Acyclic (AudioGraphManager.mk [("in", 0), ("f", 0), ("out", 0)] [("in", "f"), ("f", "out")] : AudioGraphManager ℕ).connections :=
    acyclic_of_rank (fun s => if s = "in" then 0 else if s = "f" then 1 else 2)
      (by decide)
  exact ⟨(rebuildPlan_topological _ (Plan.mk [] 0) hacyc).1,
    (rebuildPlan_topological _ (Plan.mk [] 0) hacyc).2.2.2⟩

/-- An all-zero audio block of `frames` rows and `ch` channels
(`np.zeros((frames, ch))`). -/
def zeroBlock (frames ch : ℕ) : List (List ℚ) :=
  List.replicate frames (List.replicate ch 0)

/-- Dot product of a coefficient list with a (most-recent-first) history. -/
def sumConv (cs vs : List ℚ) : ℚ :=
  (cs.zip vs).foldl (fun s p => s + p.1 * p.2) 0

/-- Recursion for the 1-D IIR difference equation
`y[n] = (sum b[k] x[n-k] - sum a[k] y[n-k]) / a[0]` with zero initial state,
which is what `scipy.signal.lfilter(b, a, x)` computes along one axis when no
`zi` is passed. `xrev`/`yrev` hold the already-consumed inputs and produced
outputs, most recent first. -/
def lfilterGo (b a : List ℚ) : List ℚ → List ℚ → List ℚ → List ℚ
  | _, _, [] => []
  | xrev, yrev, x :: xs =>
    let y := (sumConv b (x :: xrev) - sumConv a.tail yrev) / a.headD 1
    y :: lfilterGo b a (x :: xrev) (y :: yrev) xs

/-- `scipy.signal.lfilter(b, a, x)` on a 1-D signal, zero initial state. -/
def lfilter (b a : List ℚ) (x : List ℚ) : List ℚ :=
  lfilterGo b a [] [] x

/-- The filter node's per-instance data: the coefficient lists `self.b`,
`self.a` produced by `_update_coefficients`. The source class keeps no other
mutable processing state (in particular no carried filter memory). The
coefficients are abstract here because `signal.butter` is transcendental; the
claims settled below hold for arbitrary coefficient values. -/
structure AudioFilterNode where
  b : List ℚ
  a : List ℚ
deriving Repr

/-- Embeds `AudioFilterNode.process`: `None` input returns
`np.zeros((1024, 2))`; otherwise `signal.lfilter(self.b, self.a, input_data)`
is applied with scipy's default `axis=-1`, i.e. the recursion runs along each
FRAME's channel vector (each row), with zero initial state on every call. -/
def AudioFilterNode.process (n : AudioFilterNode)
    (input : Option (List (List ℚ))) : List (List ℚ) × AudioFilterNode :=
  match input with
  | none => (zeroBlock 1024 2, n)
  | some x => (x.map (lfilter n.b n.a), n)

/-- Column `j` of a rectangular block: one channel's samples across frames. -/
def column (x : List (List ℚ)) (j : ℕ) : List ℚ :=
  x.map (fun r => r.getD j 0)

/-- Transpose of a rectangular block (frames x channels to channels x
frames). -/
def transposeQ (x : List (List ℚ)) : List (List ℚ) :=
  (List.range (x.headD []).length).map (column x)

/-- The filtering the spec describes for claim C3 (for comparison with the
source behaviour): each CHANNEL filtered independently along the frame (time)
axis within the block. -/
def filterPerChannelSpec (b a : List ℚ) (x : List (List ℚ)) :
    List (List ℚ) :=
  transposeQ ((transposeQ x).map (lfilter b a))

/-- Claim C3: the source filters along the wrong axis. For coefficients
`b = [1,2,1]`, `a = [1]` and the block `[[1,0],[0,0]]` (an impulse in channel
0 at frame 0), the source's `process` smears the impulse across CHANNELS of
frame 0 (output `[[1,2],[0,0]]`), while per-channel filtering along the frame
axis, as claimed, yields `[[1,0],[2,0]]`. The two disagree. (The source also
carries no filter state between calls: `AudioFilterNode` has no state field
to carry, `lfilter` being invoked without `zi`.) -/
theorem filter_wrong_axis_eval :
    (AudioFilterNode.process ⟨[1, 2, 1], [1]⟩ (some [[1, 0], [0, 0]])).1 =
      [[1, 2], [0, 0]] ∧
    filterPerChannelSpec [1, 2, 1] [1] [[1, 0], [0, 0]] = [[1, 0], [2, 0]] ∧
    (AudioFilterNode.process ⟨[1, 2, 1], [1]⟩ (some [[1, 0], [0, 0]])).1 ≠
      filterPerChannelSpec [1, 2, 1] [1] [[1, 0], [0, 0]] := by
  refine ⟨?_, ?_, ?_⟩ <;>
    norm_num [AudioFilterNode.process, filterPerChannelSpec, transposeQ,
      column, lfilter, lfilterGo, sumConv, List.range_succ]

/-- NumPy's error message when a multi-element boolean array is used in an
`if` condition, as `CompressorNode.process` does on any block with more than
one channel. -/
def numpyAmbiguousTruth : String :=
  "The truth value of an array with more than one element is ambiguous"

/-- One envelope update of `CompressorNode.process`:
`self.envelope += (g - self.envelope) / attack_samples` when the target is
below the envelope, else the release branch. -/
def compressorEnvStep (attackSamples releaseSamples env g : ℚ) : ℚ :=
  if g < env then env + (g - env) / attackSamples
  else env + (g - env) / releaseSamples

/-- The envelope loop of `CompressorNode.process`. `gain_reduction` is a
frames x channels array, so `gain_reduction[i]` is a ROW; comparing a row to
the scalar envelope is only a usable truth value when the row has exactly one
element — for any other width NumPy raises the ambiguous-truth `ValueError`,
modelled by the `Except.error` branch. -/
def compressorEnvLoop (attackSamples releaseSamples : ℚ) :
    ℚ → List (List ℚ) → Except String ℚ
  | env, [] => Except.ok env
  | env, row :: rest =>
    match row with
    | [g] =>
      compressorEnvLoop attackSamples releaseSamples
        (compressorEnvStep attackSamples releaseSamples env g) rest
    | _ => Except.error numpyAmbiguousTruth

/-- The per-sample target gain reduction of `CompressorNode.process`:
`min(0, (level_db - threshold) * (1 - 1/ratio))`, with `lvl` standing for the
transcendental `20*log10(|x| + 1e-10)`. -/
def compressorGainReduction (lvl : ℚ → ℚ) (threshold ratio : ℚ) (x : ℚ) :
    ℚ :=
  min 0 ((lvl x - threshold) * (1 - 1 / ratio))

/-- Embeds `CompressorNode.process`. `None` input returns
`np.zeros((1024, 2))` and leaves the envelope untouched. Otherwise the target
gain-reduction array is computed per sample, the envelope loop runs over its
rows (raising on multi-channel rows), and the whole block is scaled by the
single gain `10^((envelope + makeup)/20)` derived from the FINAL envelope
(`pow10` stands for the transcendental `10^(. / 20)` base map `q ↦ 10^q`). -/
def compressorProcess (lvl pow10 : ℚ → ℚ)
    (threshold ratio makeup attackSamples releaseSamples env : ℚ)
    (input : Option (List (List ℚ))) : Except String (List (List ℚ) × ℚ) :=
  match input with
  | none => Except.ok (zeroBlock 1024 2, env)
  | some x =>
    match compressorEnvLoop attackSamples releaseSamples env
        (x.map (List.map (compressorGainReduction lvl threshold ratio))) with
    | Except.error e => Except.error e
    | Except.ok env' =>
      Except.ok
        (x.map (List.map (fun s => s * pow10 ((env' + makeup) / 20))), env')

/-- Claim C4: with ratio 1 and makeup 0 the compressor does return mono
blocks unchanged from envelope 0, but on ANY block with two (or more)
channels — the engine's fixed stereo shape included — `process` raises
NumPy's ambiguous-truth `ValueError` in the envelope loop instead of
returning the block. Evaluated at the default threshold -20 dB and default
attack/release sample counts 220 and 2205. -/
theorem compressor_ambiguous_truth_eval :
    compressorProcess (fun q => q) (fun _ => 1) (-20) 1 0 220 2205 0
      (some [[0, 0]]) = Except.error numpyAmbiguousTruth ∧
    compressorProcess (fun q => q) (fun _ => 1) (-20) 1 0 220 2205 0
      (some [[5], [7]]) = Except.ok ([[5], [7]], 0) := by
  refine ⟨rfl, ?_⟩
  norm_num [compressorProcess, compressorEnvLoop, compressorEnvStep,
    compressorGainReduction]

/-- A stereo sample row: the delay buffer is `np.zeros((buffer_size, 2))`,
so rows carry exactly two channels. -/
abbrev Row : Type := ℚ × ℚ

/-- The all-zero stereo row. -/
def zeroRow : Row := (0, 0)

/-- Elementwise row addition (NumPy `+` on two rows). -/
def addRow (r s : Row) : Row := (r.1 + s.1, r.2 + s.2)

/-- Row times scalar (NumPy `row * k`). -/
def mulRow (r : Row) (k : ℚ) : Row := (r.1 * k, r.2 * k)

/-- Embeds `DelayNode`'s instance state: `self.feedback`, `self.mix`,
`self.buffer` (a `buffer_size x 2` ring buffer) and `self.write_pos`. The
`delay_time`/`sample_rate` parameters only determine the initial buffer size
(see `DelayNode.init`). -/
structure DelayNode where
  feedback : ℚ
  mix : ℚ
  buffer : List Row
  write_pos : ℕ
deriving Repr

/-- Embeds `DelayNode.__init__`: `buffer_size = int(delay_time *
sample_rate / 1000)` (Python `int` truncation, i.e. floor for the
non-negative sizes that arise), an all-zero buffer of that many stereo rows,
and a write cursor at 0. No validation of any parameter is performed —
`feedback` is stored exactly as passed. -/
def DelayNode.init (dt fb mx sr : ℚ) : DelayNode :=
  { feedback := fb, mix := mx,
    buffer := List.replicate (Int.toNat ⌊dt * sr / 1000⌋) zeroRow,
    write_pos := 0 }

/-- One loop iteration of `DelayNode.process`. `read_pos = (write_pos -
buffer_size) % buffer_size` (Python `%` is NumPy/ Python nonnegative
remainder, modelled with `Int.emod`; for `write_pos < buffer_size` this
equals `write_pos`). `delayed = self.buffer[read_pos]` is a NumPy VIEW of
the buffer row; the subsequent `self.buffer[self.write_pos] = input +
delayed * feedback` overwrites that very row, so the wet term of the output
line reads the NEWLY WRITTEN value `newVal`, not the value that was read. -/
def DelayNode.step (st : DelayNode) (x : Row) : Row × DelayNode :=
  let size := st.buffer.length
  let readPos := (((st.write_pos : ℤ) - (size : ℤ)) % (size : ℤ)).toNat
  let newVal := addRow x (mulRow (st.buffer.getD readPos zeroRow) st.feedback)
  (addRow (mulRow x (1 - st.mix)) (mulRow newVal st.mix),
   { st with buffer := st.buffer.set st.write_pos newVal,
             write_pos := (st.write_pos + 1) % size })

/-- The sample loop of `DelayNode.process` over one block of frames. -/
def DelayNode.run (st : DelayNode) : List Row → List Row × DelayNode
  | [] => ([], st)
  | x :: xs =>
    let p := st.step x
    let q := p.2.run xs
    (p.1 :: q.1, q.2)

/-- Embeds `DelayNode.process`: `None` input returns `np.zeros((1024, 2))`
without touching any state; otherwise the sample loop runs over the block. -/
def DelayNode.process (st : DelayNode) (input : Option (List Row)) :
    List Row × DelayNode :=
  match input with
  | none => (List.replicate 1024 zeroRow, st)
  | some xs => st.run xs

/-- Successive `process` calls over a sequence of input blocks. -/
def DelayNode.runBlocks (st : DelayNode) :
    List (List Row) → List (List Row) × DelayNode
  | [] => ([], st)
  | blk :: blks =>
    let p := st.process (some blk)
    let q := p.2.runBlocks blks
    (p.1 :: q.1, q.2)

/-- Claim C8: `DelayNode` stores any feedback value unvalidated. Constructing
a node with feedback 3/2 succeeds and the live node's feedback has magnitude
at least one (there is also no parameter-setting entry point anywhere in the
source that could reject it). -/
theorem delay_feedback_unvalidated :
    (DelayNode.init 500 (3 / 2) (1 / 2) 44100).feedback = 3 / 2 ∧
    ¬ |(DelayNode.init 500 (3 / 2) (1 / 2) 44100).feedback| < 1 := by
  constructor
  · rfl
  · show ¬ |(3 / 2 : ℚ)| < 1
    rw [abs_of_pos (by norm_num)]
    norm_num

/-- Claim C5: the delay's impulse response. With buffer size 2, feedback 1/2
and mix 1/2, a unit impulse followed by zeros yields echoes `mix*feedback^k`
at sample `k*d` — NOT the claimed `mix*feedback^(k-1)`: because `delayed`
aliases the freshly overwritten buffer row, the first echo at `d = 2` is
`mix*feedback = 1/4` rather than the mix-scaled impulse `mix = 1/2`, and the
echo at `2d = 4` is `1/8` rather than `1/4`. -/
theorem delay_impulse_extra_feedback :
    (DelayNode.run ⟨1 / 2, 1 / 2, [zeroRow, zeroRow], 0⟩
        [(1, 1), (0, 0), (0, 0), (0, 0), (0, 0)]).1 =
      [(1, 1), (0, 0), (1 / 4, 1 / 4), (0, 0), (1 / 8, 1 / 8)] ∧
    (DelayNode.run ⟨1 / 2, 1 / 2, [zeroRow, zeroRow], 0⟩
        [(1, 1), (0, 0), (0, 0), (0, 0), (0, 0)]).1.getD 2 zeroRow =
      (1 / 4, 1 / 4) ∧
    ((1 / 4 : ℚ), (1 / 4 : ℚ)) ≠ ((1 / 2 : ℚ), (1 / 2 : ℚ)) := by
  refine ⟨?_, ?_, by norm_num⟩ <;>
    norm_num [DelayNode.run, DelayNode.step, addRow, mulRow, zeroRow]

theorem getD_replicate {α : Type} (n i : ℕ) (a : α) :
    (List.replicate n a).getD i a = a := by
  induction n generalizing i with
  | zero => simp [List.getD]
  | succ n ih =>
    cases i with
    | zero => simp [List.replicate_succ]
    | succ i => simp [List.replicate_succ, ih]

theorem set_replicate_self {α : Type} (n i : ℕ) (a : α) :
    (List.replicate n a).set i a = List.replicate n a := by
  induction n generalizing i with
  | zero => rfl
  | succ n ih =>
    cases i with
    | zero => simp [List.replicate_succ]
    | succ i => simp [List.replicate_succ, ih]

/-- Stepping a zero-buffer delay with a zero input row produces a zero output
row and leaves the buffer all-zero; only the write cursor advances. -/
theorem delay_step_zero (f m : ℚ) (n wp : ℕ) :
    DelayNode.step ⟨f, m, List.replicate n zeroRow, wp⟩ zeroRow =
      (zeroRow, ⟨f, m, List.replicate n zeroRow, (wp + 1) % n⟩) := by
  simp [DelayNode.step, addRow, mulRow, zeroRow, getD_replicate,
    set_replicate_self]

/-- Running any all-zero block through a zero-buffer delay yields an all-zero
output block and again a zero buffer. -/
theorem delay_run_zero (f m : ℚ) (n : ℕ) :
    ∀ (xs : List Row) (wp : ℕ), (∀ r ∈ xs, r = zeroRow) →
      (DelayNode.run ⟨f, m, List.replicate n zeroRow, wp⟩ xs).1 =
        List.replicate xs.length zeroRow ∧
      ∃ wp', (DelayNode.run ⟨f, m, List.replicate n zeroRow, wp⟩ xs).2 =
        ⟨f, m, List.replicate n zeroRow, wp'⟩ := by
  intro xs
  induction xs with
  | nil => exact fun wp _ => ⟨rfl, wp, rfl⟩
  | cons x xs ih =>
    intro wp h
    have hx : x = zeroRow := h x (List.mem_cons_self x xs)
    subst hx
    obtain ⟨h1, wp', h2⟩ :=
      ih ((wp + 1) % n) (fun r hr => h r (List.mem_cons_of_mem _ hr))
    refine ⟨?_, wp', ?_⟩
    · simp [DelayNode.run, delay_step_zero, h1, List.replicate_succ]
    · simp [DelayNode.run, delay_step_zero, h2]

/-- Claim C9: silence is a fixed point of the delay. From an all-zero ring
buffer, any sequence of all-zero input blocks produces all-zero output
blocks, and the buffer is again all-zero after every call — for any feedback
and mix values and any cursor position. -/
theorem delay_silence_fixed_point (f m : ℚ) (n : ℕ) :
    ∀ (blocks : List (List Row)) (wp : ℕ),
      (∀ blk ∈ blocks, ∀ r ∈ blk, r = zeroRow) →
      (∀ out ∈ (DelayNode.runBlocks ⟨f, m, List.replicate n zeroRow, wp⟩
          blocks).1, ∀ r ∈ out, r = zeroRow) ∧
      (DelayNode.runBlocks ⟨f, m, List.replicate n zeroRow, wp⟩
          blocks).2.buffer = List.replicate n zeroRow := by
  intro blocks
  induction blocks with
  | nil => exact fun wp _ => ⟨fun out hout => absurd hout (List.not_mem_nil _), rfl⟩
  | cons blk blks ih =>
    intro wp h
    have hblk : ∀ r ∈ blk, r = zeroRow := h blk (List.mem_cons_self blk blks)
    obtain ⟨h1, wp', h2⟩ :=
      delay_run_zero f m n blk wp hblk
    have hrest : ∀ b ∈ blks, ∀ r ∈ b, r = zeroRow :=
      fun b hb => h b (List.mem_cons_of_mem _ hb)
    obtain ⟨ih1, ih2⟩ := ih wp' hrest
    constructor
    · intro out hout
      simp only [DelayNode.runBlocks, DelayNode.process, h1, h2] at hout
      rcases List.mem_cons.mp hout with rfl | hout'
      · exact fun r hr => List.eq_of_mem_replicate hr
      · exact ih1 out hout'
    · simp only [DelayNode.runBlocks, DelayNode.process, h1, h2]
      exact ih2

/-- Witness for C9 at a concrete silent two-block sequence. -/
theorem delay_silence_fixed_point_witness :
    (∀ blk ∈ [[zeroRow], [zeroRow, zeroRow]], ∀ r ∈ blk, r = zeroRow) ∧
    (∀ out ∈ (DelayNode.runBlocks ⟨1 / 3, 1 / 4, List.replicate 2 zeroRow, 0⟩
        [[zeroRow], [zeroRow, zeroRow]]).1, ∀ r ∈ out, r = zeroRow) ∧
    (DelayNode.runBlocks ⟨1 / 3, 1 / 4, List.replicate 2 zeroRow, 0⟩
        [[zeroRow], [zeroRow, zeroRow]]).2.buffer = List.replicate 2 zeroRow := by
  have hz : ∀ blk ∈ [[zeroRow], [zeroRow, zeroRow]], ∀ r ∈ blk, r = zeroRow := by
    intro blk hblk r hr
    rcases List.mem_cons.mp hblk with rfl | hblk'
    · exact List.eq_of_mem_replicate (n := 1) (by simpa using hr)
    · rcases List.mem_singleton.mp hblk' with rfl
      exact List.eq_of_mem_replicate (n := 2) (by simpa using hr)
  obtain ⟨h1, h2⟩ :=
    delay_silence_fixed_point (1 / 3) (1 / 4) 2 [[zeroRow], [zeroRow, zeroRow]] 0 hz
  exact ⟨hz, h1, h2⟩

/-- Claim C10: for all three effect nodes, `process` with no input
(`input_data is None`) returns the hard-coded all-zero 1024 x 2 block —
regardless of sample rate, channel parameters, coefficient values, envelope,
or delay buffer size — and leaves every field of the node's internal state
(coefficients, envelope, delay buffer, write cursor) unchanged. -/
theorem process_none_returns_zero_block (fn : AudioFilterNode)
    (lvl pow10 : ℚ → ℚ) (t r mu aS rS env : ℚ) (dn : DelayNode) :
    AudioFilterNode.process fn none = (zeroBlock 1024 2, fn) ∧
    compressorProcess lvl pow10 t r mu aS rS env none =
      Except.ok (zeroBlock 1024 2, env) ∧
    DelayNode.process dn none = (List.replicate 1024 zeroRow, dn) :=
  ⟨rfl, rfl, rfl⟩
